import Mathlib

/-!
Verification of `big_cluster.py` (k-clustering of binary-string nodes with a
minimum Hamming spacing, via Kruskal-style union-find merging).

Nodes are embedded as `List Char` (Python strings of the digits '0'/'1';
other characters may occur in malformed input).  Python's `set` of strings
becomes `Finset (List Char)`; a raised exception (`ValueError` from
`_swap_digit`, or the uncaught `StopIteration` in `get_k_min_spacing`)
becomes `none` in an `Option` result.

The imported module `unionfind_bigcluster` (class `UnionFind`) is not part of
the source tree; it is modelled from the spec (section 4.1 DisjointSet) below.
-/

/-- The string/node type: a Python string as a list of characters. -/
abbrev Str := List Char

/-- A directed edge endpoint pair, as stored in `edge_endpoints` buckets. -/
abbrev EdgePair := Str × Str

/-- `_swap_digit` (src lines 97-103): flips '1' to '0' and '0' to '1';
any other character raises `ValueError`, embedded as `none`. -/
def swap_digit (c : Char) : Option Char :=
  if c = '1' then some '0'
  else if c = '0' then some '1'
  else none

/-- One assignment `node_str_swapping[index] = _swap_digit(node_str_swapping[index])`
(src line 54): reads position `i`, swaps the digit, writes it back.
`none` when the digit is not binary (the `ValueError`); callers only pass
in-range indices, so the out-of-range branch is never hit. -/
def flip_at (s : Str) (i : ℕ) : Option Str :=
  if h : i < s.length then
    (swap_digit (s.get ⟨i, h⟩)).map (fun c => s.set i c)
  else none

/-- The inner loop `for index in swap_index_tup` (src lines 53-54): flip the
positions of one combination tuple in sequence, propagating the first error. -/
def flip_tuple (s : Str) : List ℕ → Option Str
  | [] => some s
  | i :: is =>
    match flip_at s i with
    | none => none
    | some t => flip_tuple t is

/-- Error-propagating map over a list (the way a Python `for` loop aborts the
whole call on the first raised exception). -/
def seqMap (f : α → Option β) : List α → Option (List β)
  | [] => some []
  | a :: as =>
    match f a with
    | none => none
    | some b =>
      match seqMap f as with
      | none => none
      | some bs => some (b :: bs)

/-- `itertools.combinations(positions, d)` with `positions = [0..L-1]`
(src lines 47, 50): all strictly increasing `d`-tuples of positions,
i.e. all length-`d` sublists of `[0, ..., L-1]`. -/
def combinations (L d : ℕ) : List (List ℕ) :=
  (List.range L).sublistsLen d

/-- The set filled at bucket `d` of `_calculate_possible_neighbors_iter`
(src lines 50-55), as the list of flipped strings before deduplication:
one entry per combination tuple, error-propagating. -/
def neighbors_at (node_str : Str) (d : ℕ) : Option (List Str) :=
  seqMap (flip_tuple node_str) (combinations node_str.length d)

/-- `BigCluster._calculate_possible_neighbors_iter` (src lines 39-57):
for each edge cost `d` in `range(min_spacing)`, the Python `set` of all
strings obtained from `node_str` by flipping the positions of each
`d`-combination.  A `ValueError` raised by `_swap_digit` propagates out of
the whole call (`none`). -/
def calculate_possible_neighbors_iter (node_str : Str) (min_spacing : ℕ) :
    Option (List (Finset Str)) :=
  seqMap (fun d => (neighbors_at node_str d).map List.toFinset)
    (List.range min_spacing)

/-- The pure binary digit swap. -/
def swap_pure (c : Char) : Char :=
  if c = '1' then '0' else if c = '0' then '1' else c

/-- The pure flip of `s` at the set `P` of positions ('0' and '1' swapped,
other characters left alone); the string obtained by flipping exactly the
positions of `P` (only positions `< s.length` matter). -/
def flip_finset (s : Str) (P : Finset ℕ) : Str :=
  List.ofFn (fun i : Fin s.length =>
    if (i : ℕ) ∈ P then swap_pure (s.get i) else s.get i)

/-- A string over the alphabet {'0','1'}. -/
def IsBinary (s : Str) : Prop := ∀ c ∈ s, c = '0' ∨ c = '1'

instance : DecidablePred IsBinary := fun s =>
  inferInstanceAs (Decidable (∀ c ∈ s, c = '0' ∨ c = '1'))

/-- A lexicographic-style total order on edge pairs, used only to fix one
concrete enumeration order for Python sets of pairs (whose iteration order is
arbitrary). -/
def pairLe (a b : EdgePair) : Prop :=
  a.1 < b.1 ∨ (a.1 = b.1 ∧ a.2 ≤ b.2)

instance : DecidableRel pairLe := fun a b =>
  inferInstanceAs (Decidable (a.1 < b.1 ∨ (a.1 = b.1 ∧ a.2 ≤ b.2)))

instance : IsTrans EdgePair pairLe :=
  ⟨fun a b c hab hbc => by
    rcases hab with h1 | ⟨h1, h2⟩ <;> rcases hbc with h3 | ⟨h3, h4⟩
    · exact Or.inl (lt_trans h1 h3)
    · exact Or.inl (h3 ▸ h1)
    · exact Or.inl (h1 ▸ h3)
    · exact Or.inr ⟨h1.trans h3, le_trans h2 h4⟩⟩

instance : IsAntisymm EdgePair pairLe :=
  ⟨fun a b hab hba => by
    rcases hab with h1 | ⟨h1, h2⟩ <;> rcases hba with h3 | ⟨h3, h4⟩
    · exact absurd (lt_trans h1 h3) (lt_irrefl _)
    · exact absurd h1 (h3 ▸ lt_irrefl _)
    · exact absurd h3 (h1 ▸ lt_irrefl _)
    · exact Prod.ext h1 (le_antisymm h2 h4)⟩

instance : IsTotal EdgePair pairLe :=
  ⟨fun a b => by
    rcases lt_trichotomy a.1 b.1 with h | h | h
    · exact Or.inl (Or.inl h)
    · rcases le_total a.2 b.2 with h2 | h2
      · exact Or.inl (Or.inr ⟨h, h2⟩)
      · exact Or.inr (Or.inr ⟨h.symm, h2⟩)
    · exact Or.inr (Or.inl h)⟩

/-- Enumerate a multiset in sorted order (insertion sort, so that concrete
values evaluate). -/
def msort {α : Type} (r : α → α → Prop) [DecidableRel r] [IsTrans α r]
    [IsAntisymm α r] [IsTotal α r] (s : Multiset α) : List α :=
  Quot.liftOn s (fun l => l.insertionSort r) (fun l₁ l₂ h =>
    List.eq_of_perm_of_sorted
      ((List.perm_insertionSort r l₁).trans (h.trans (List.perm_insertionSort r l₂).symm))
      (List.sorted_insertionSort r l₁) (List.sorted_insertionSort r l₂))

theorem mem_msort {α : Type} (r : α → α → Prop) [DecidableRel r] [IsTrans α r]
    [IsAntisymm α r] [IsTotal α r] {s : Multiset α} {a : α} :
    a ∈ msort r s ↔ a ∈ s :=
  Quot.inductionOn s fun l => (List.mem_insertionSort r).trans Multiset.mem_coe.symm

theorem length_msort {α : Type} (r : α → α → Prop) [DecidableRel r] [IsTrans α r]
    [IsAntisymm α r] [IsTotal α r] {s : Multiset α} :
    (msort r s).length = Multiset.card s :=
  Quot.inductionOn s fun l => (List.perm_insertionSort r l).length_eq

/-- One concrete enumeration of the loaded node set (Python `set` iteration
order is arbitrary). -/
def node_list (nodes : Finset Str) : List Str := msort (· ≤ ·) nodes.val

theorem mem_node_list {nodes : Finset Str} {x : Str} :
    x ∈ node_list nodes ↔ x ∈ nodes :=
  (mem_msort (· ≤ ·)).trans Finset.mem_def.symm

theorem length_node_list {nodes : Finset Str} :
    (node_list nodes).length = nodes.card :=
  length_msort (· ≤ ·)

/-- `BigCluster._find_present_neighbors` (src lines 59-72): filter each cost
bucket of possible neighbors down to the strings that are members of the
loaded node set, preserving the bucket index. -/
def find_present_neighbors (nodes : Finset Str) (possible_neighbors : List (Finset Str)) :
    List (Finset Str) :=
  possible_neighbors.map (fun s => s.filter (fun x => x ∈ nodes))

/-- The edge pairs one node contributes in `add_relevant_edges`
(src lines 27-37): its present neighbors at each cost, each paired as
`(node_str, neighbor_str)`, bucketed by cost index `0 .. min_spacing-1`. -/
def node_edge_buckets (nodes : Finset Str) (min_spacing : ℕ) (node_str : Str) :
    Option (List (Finset EdgePair)) :=
  (calculate_possible_neighbors_iter node_str min_spacing).map (fun possible =>
    (find_present_neighbors nodes possible).map
      (fun s => s.image (fun neighbor_str => (node_str, neighbor_str))))

/-- The dict-building loop of `add_relevant_edges` (src lines 27-37) over the
remaining nodes.  The Python dict `edge_endpoints` is represented positionally:
entry `d` of the list is the set stored under key `d` — faithful because every
node's pass creates the keys `0, 1, ..., min_spacing-1` in that insertion
order (`for edge_cost in range(len(present_neighbors))`), so the dict's keys
are exactly `0 .. min_spacing-1` in increasing order once any node has been
processed, and the dict is empty otherwise. -/
def add_edges_loop (nodes : Finset Str) (min_spacing : ℕ)
    (dict : List (Finset EdgePair)) : List Str → Option (List (Finset EdgePair))
  | [] => some dict
  | n :: ns =>
    match node_edge_buckets nodes min_spacing n with
    | none => none
    | some bks =>
      add_edges_loop nodes min_spacing
        (if dict.isEmpty then bks else dict.zipWith (fun s t => s ∪ t) bks) ns

/-- `BigCluster.add_relevant_edges` (src lines 23-37): starting from the empty
`edge_endpoints` dict, process every loaded node (Python `set` iteration order
is arbitrary; sorting fixes one concrete order, and the resulting dict is
order-independent anyway). -/
def add_relevant_edges (nodes : Finset Str) (min_spacing : ℕ) :
    Option (List (Finset EdgePair)) :=
  add_edges_loop nodes min_spacing [] (node_list nodes)

/-- A concrete enumeration of a bucket's pairs (the order in which
`edges.pop()` empties a Python set is arbitrary; lexicographic order fixes
one). -/
def edge_list (s : Finset EdgePair) : List EdgePair :=
  msort pairLe s.val

/-- The generator body of `_yield_edges` (src lines 91-95) from bucket cost `c`
on: drain the current bucket (`edges.pop()` until empty), then move to the
next dict key. -/
def yield_from (c : ℕ) : List (Finset EdgePair) → List (ℕ × EdgePair)
  | [] => []
  | s :: rest => (edge_list s).map (fun e => (c, e)) ++ yield_from (c + 1) rest

/-- `BigCluster._yield_edges` (src lines 91-95): the full stream of
`(edge_cost, (u, v))` values the generator yields, dict keys in insertion
order starting at cost 0. -/
def yield_edges (dict : List (Finset EdgePair)) : List (ℕ × EdgePair) :=
  yield_from 0 dict

/-- Modelled from the spec: the `UnionFind` class of the absent module
`unionfind_bigcluster` (spec section 4.1 DisjointSet): "mapping from
Node → parent Node (initially self), plus mapping from representative
Node → component size".  The parent chains are represented by the
fully-resolved representative function `rep` (the value `find` returns; path
compression only rewrites interior parent pointers and never changes any
`find` result, so it is invisible at this level).  `nodes` is the registered
node set (`cluster_field.nodes` in the source). -/
structure UnionFind where
  nodes : Finset Str
  rep : Str → Str

/-- Modelled from the spec: a fresh `UnionFind` with no nodes. -/
def UnionFind.empty : UnionFind := ⟨∅, fun x => x⟩

/-- Modelled from the spec: `add_node` / `add_node_str` (spec 4.1):
"registers `n` as its own singleton component if not already present;
idempotent". -/
def UnionFind.add_node_str (uf : UnionFind) (n : Str) : UnionFind :=
  if n ∈ uf.nodes then uf
  else ⟨insert n uf.nodes, fun x => if x = n then n else uf.rep x⟩

/-- Modelled from the spec: `find` (spec 4.1): "returns the representative of
`n`'s component". -/
def UnionFind.find (uf : UnionFind) (n : Str) : Str := uf.rep n

/-- Modelled from the spec: the recorded size of the component represented by
`r`: the number of registered nodes whose representative is `r`. -/
def UnionFind.size_of (uf : UnionFind) (r : Str) : ℕ :=
  (uf.nodes.filter (fun x => uf.rep x = r)).card

/-- Modelled from the spec: `union` (spec 4.1): "merges the components
containing `a` and `b` if they differ; no-op if they already share a
representative.  Merge policy: attach the smaller component's representative
under the larger (union by size)". -/
def UnionFind.union (uf : UnionFind) (a b : Str) : UnionFind :=
  let ra := uf.rep a
  let rb := uf.rep b
  if ra = rb then uf
  else if uf.size_of ra < uf.size_of rb then
    ⟨uf.nodes, fun x => if uf.rep x = ra then rb else uf.rep x⟩
  else
    ⟨uf.nodes, fun x => if uf.rep x = rb then ra else uf.rep x⟩

/-- Modelled from the spec: the `component_sizes` mapping (spec 3 DisjointSet:
"mapping from representative Node → component size"), as its entry set:
one `(representative, size)` pair per live representative.
`len(self.cluster_field.component_sizes)` in the source is its cardinality. -/
def UnionFind.component_sizes (uf : UnionFind) : Finset (Str × ℕ) :=
  (uf.nodes.image uf.rep).image (fun r => (r, uf.size_of r))

/-- Modelled from the spec: `component_count` (spec 4.1): "number of distinct
representatives currently tracked". -/
def UnionFind.component_count (uf : UnionFind) : ℕ := uf.component_sizes.card

/-- The load phase (`load_node_data`, src lines 13-21): each input line's
string is registered with `add_node_str`. -/
def load_nodes (l : List Str) : UnionFind :=
  l.foldl UnionFind.add_node_str UnionFind.empty

/-- One iteration of the clustering loop of `get_k_min_spacing`
(src lines 83-85): `if find(u) != find(v): union(u, v)`. -/
def process_edge (uf : UnionFind) (e : ℕ × EdgePair) : UnionFind :=
  if uf.find e.2.1 ≠ uf.find e.2.2 then uf.union e.2.1 e.2.2 else uf

/-- The whole clustering loop: process the streamed edges in order. -/
def process_edges (uf : UnionFind) (es : List (ℕ × EdgePair)) : UnionFind :=
  es.foldl process_edge uf

/-- `BigCluster.get_k_min_spacing` (src lines 74-89): the first
`next(edge_generator)` (line 81) runs outside any `try`, so an empty edge
stream raises an uncaught `StopIteration` (`none`).  Otherwise every yielded
edge is processed (the loop tuple is always truthy) and, once the generator
is exhausted inside the `try`, `len(self.cluster_field.component_sizes)` is
returned. -/
def get_k_min_spacing (uf : UnionFind) (dict : List (Finset EdgePair)) : Option ℕ :=
  match yield_edges dict with
  | [] => none
  | e :: es => some ((process_edges (process_edge uf e) es).component_sizes.card)

/-- The `BigCluster` object state (src lines 6-11): `edge_endpoints` (the
positional embedding of the cost-keyed dict), `min_spacing`, and
`cluster_field`. -/
structure BigCluster where
  edge_endpoints : List (Finset EdgePair)
  min_spacing : ℕ
  cluster_field : UnionFind

/-- `BigCluster.add_relevant_edges` as a method on the object state: its only
write is the assignment into `self.edge_endpoints` (src lines 34-37). -/
def BigCluster.add_relevant_edges_method (bc : BigCluster) : Option BigCluster :=
  (add_relevant_edges bc.cluster_field.nodes bc.min_spacing).map
    (fun d => { bc with edge_endpoints := d })

/-- Spec-side description of the neighbor set of `n` at distance `d`: the
image of `n` under flips of every `d`-element set of positions. -/
def neighbors_spec (n : Str) (d : ℕ) : Finset Str :=
  Finset.image (flip_finset n) (Finset.powersetCard d (Finset.range n.length))

/-- Spec-side description of the edge pairs one node contributes at cost `d`:
its distance-`d` neighbors that are themselves nodes, paired as `(n, t)`. -/
def node_buckets_spec (nodes : Finset Str) (n : Str) (d : ℕ) : Finset EdgePair :=
  ((neighbors_spec n d).filter (fun t => t ∈ nodes)).image (fun t => (n, t))

/-- Spec-side description of one whole cost bucket of discovered edges
(spec 4.3): all pairs `(n, t)` of nodes at flip-distance exactly `d`. -/
def bucket_edges (nodes : Finset Str) (d : ℕ) : Finset EdgePair :=
  nodes.biUnion (fun n => node_buckets_spec nodes n d)

/-- The edge pairs contributed at cost `d` by the nodes of the list `l`
(the accumulated dict contents after processing `l`). -/
def edges_upto (nodes : Finset Str) (l : List Str) (d : ℕ) : Finset EdgePair :=
  l.foldr (fun n acc => node_buckets_spec nodes n d ∪ acc) ∅

/-! ### Lemmas about `seqMap` -/

theorem seqMap_eq_some_of {f : α → Option β} {g : α → β} :
    ∀ {l : List α}, (∀ a ∈ l, f a = some (g a)) → seqMap f l = some (l.map g)
  | [], _ => rfl
  | a :: as, h => by
    have ha : f a = some (g a) := h a (List.mem_cons_self a as)
    have hrest : seqMap f as = some (as.map g) :=
      seqMap_eq_some_of (fun x hx => h x (List.mem_cons_of_mem a hx))
    simp [seqMap, ha, hrest]

theorem seqMap_eq_none_of_mem {f : α → Option β} :
    ∀ {l : List α} {a : α}, a ∈ l → f a = none → seqMap f l = none
  | b :: bs, a, h, hfa => by
    rcases List.mem_cons.mp h with rfl | hmem
    · simp [seqMap, hfa]
    · cases hfb : f b with
      | none => simp [seqMap, hfb]
      | some v => simp [seqMap, hfb, seqMap_eq_none_of_mem hmem hfa]

/-! ### Lemmas about binary characters and flips -/

theorem swap_digit_eq_some {c : Char} (h : c = '0' ∨ c = '1') :
    swap_digit c = some (swap_pure c) := by
  rcases h with rfl | rfl <;> rfl

theorem swap_pure_ne {c : Char} (h : c = '0' ∨ c = '1') : swap_pure c ≠ c := by
  rcases h with rfl | rfl <;> decide

theorem swap_pure_binary {c : Char} (h : c = '0' ∨ c = '1') :
    swap_pure c = '0' ∨ swap_pure c = '1' := by
  rcases h with rfl | rfl <;> simp [swap_pure]

theorem IsBinary.get {s : Str} (hb : IsBinary s) (i : Fin s.length) :
    s.get i = '0' ∨ s.get i = '1' :=
  hb _ (List.get_mem s i i.isLt)

theorem IsBinary.set {s : Str} (hb : IsBinary s) {c : Char}
    (hc : c = '0' ∨ c = '1') (i : ℕ) : IsBinary (s.set i c) := by
  intro x hx
  rcases List.mem_or_eq_of_mem_set hx with hmem | rfl
  · exact hb x hmem
  · exact hc

theorem length_flip_finset (s : Str) (P : Finset ℕ) :
    (flip_finset s P).length = s.length :=
  List.length_ofFn _

theorem getElem_flip_finset (s : Str) (P : Finset ℕ) (i : ℕ) (h : i < s.length) :
    (flip_finset s P).get ⟨i, (length_flip_finset s P).symm ▸ h⟩
      = if i ∈ P then swap_pure (s.get ⟨i, h⟩) else s.get ⟨i, h⟩ := by
  simp [flip_finset, List.get_ofFn]

theorem flip_finset_empty (s : Str) : flip_finset s ∅ = s := by
  unfold flip_finset
  simp only [Finset.not_mem_empty, if_false]
  exact List.ofFn_get s

theorem flip_finset_set {s : Str} {p : ℕ} (hp : p < s.length) (P : Finset ℕ)
    (hpP : p ∉ P) :
    flip_finset (s.set p (swap_pure (s.get ⟨p, hp⟩))) P
      = flip_finset s (insert p P) := by
  apply List.ext_get
  · simp [length_flip_finset, List.length_set]
  · intro i h1 h2
    have hi : i < s.length := by
      simpa [length_flip_finset, List.length_set] using h1
    have hset : i < (s.set p (swap_pure (s.get ⟨p, hp⟩))).length := by
      simpa [List.length_set] using hi
    have lhs := getElem_flip_finset (s.set p (swap_pure (s.get ⟨p, hp⟩))) P i hset
    have rhs := getElem_flip_finset s (insert p P) i hi
    have hget : (s.set p (swap_pure (s.get ⟨p, hp⟩))).get ⟨i, hset⟩
        = if p = i then swap_pure (s.get ⟨p, hp⟩) else s.get ⟨i, hi⟩ := by
      simpa using @List.getElem_set Char s p i (swap_pure (s.get ⟨p, hp⟩))
        (by simpa [List.length_set] using hi)
    rw [show (⟨i, h1⟩ : Fin (flip_finset (s.set p (swap_pure (s.get ⟨p, hp⟩))) P).length)
        = ⟨i, (length_flip_finset _ P).symm ▸ hset⟩ from rfl] at *
    rw [lhs]
    rw [show (⟨i, h2⟩ : Fin (flip_finset s (insert p P)).length)
        = ⟨i, (length_flip_finset s (insert p P)).symm ▸ hi⟩ from rfl, rhs]
    by_cases hiP : i ∈ P
    · have hip : i ≠ p := fun h => hpP (h ▸ hiP)
      rw [if_pos hiP, if_pos (Finset.mem_insert_of_mem hiP), hget,
        if_neg (fun h => hip h.symm)]
    · by_cases hip : i = p
      · subst hip
        rw [if_neg hiP, hget, if_pos rfl, if_pos (Finset.mem_insert_self i P)]
      · rw [if_neg hiP, hget, if_neg (fun h => hip h.symm),
          if_neg (fun h => (Finset.mem_insert.mp h).elim (fun h2 => hip h2) hiP)]

/-- The sequential flipping loop over a duplicate-free, in-range tuple of
positions computes the pure simultaneous flip, with no error. -/
theorem flip_tuple_eq :
    ∀ (ps : List ℕ) (s : Str), IsBinary s → ps.Nodup → (∀ i ∈ ps, i < s.length) →
      flip_tuple s ps = some (flip_finset s ps.toFinset)
  | [], s, _, _, _ => by simp [flip_tuple, flip_finset_empty]
  | p :: ps, s, hb, hn, hlt => by
    have hp : p < s.length := hlt p (List.mem_cons_self p ps)
    have hcb : s.get ⟨p, hp⟩ = '0' ∨ s.get ⟨p, hp⟩ = '1' := hb.get ⟨p, hp⟩
    have hswap : swap_digit (s.get ⟨p, hp⟩) = some (swap_pure (s.get ⟨p, hp⟩)) :=
      swap_digit_eq_some hcb
    have hflip : flip_at s p = some (s.set p (swap_pure (s.get ⟨p, hp⟩))) := by
      rw [flip_at, dif_pos hp, hswap, Option.map_some']
    have hlen : (s.set p (swap_pure (s.get ⟨p, hp⟩))).length = s.length :=
      List.length_set s p _
    have hrec := flip_tuple_eq ps (s.set p (swap_pure (s.get ⟨p, hp⟩)))
      (hb.set (swap_pure_binary hcb) p) (List.Nodup.of_cons hn)
      (fun i hi => by rw [hlen]; exact hlt i (List.mem_cons_of_mem p hi))
    have hpP : p ∉ ps.toFinset := by
      rw [List.mem_toFinset]
      exact (List.nodup_cons.mp hn).1
    calc flip_tuple s (p :: ps)
        = flip_tuple (s.set p (swap_pure (s.get ⟨p, hp⟩))) ps := by
          rw [flip_tuple, hflip]
      _ = some (flip_finset (s.set p (swap_pure (s.get ⟨p, hp⟩))) ps.toFinset) := hrec
      _ = some (flip_finset s (insert p ps.toFinset)) := by
          rw [flip_finset_set hp ps.toFinset hpP]
      _ = some (flip_finset s (p :: ps).toFinset) := by rw [List.toFinset_cons]

theorem getElem?_flip_finset (s : Str) (P : Finset ℕ) (i : ℕ) (h : i < s.length) :
    (flip_finset s P)[i]?
      = some (if i ∈ P then swap_pure (s.get ⟨i, h⟩) else s.get ⟨i, h⟩) := by
  have h2 : i < (flip_finset s P).length := by rw [length_flip_finset]; exact h
  rw [List.getElem?_eq_getElem h2]
  have := getElem_flip_finset s P i h
  rw [List.get_eq_getElem] at this
  exact congrArg some this

/-- Where the flipped string agrees with the original: exactly off the flipped
positions (for a binary string). -/
theorem flip_finset_getElem?_ne_iff {s : Str} (hb : IsBinary s) (P : Finset ℕ)
    (i : ℕ) (h : i < s.length) :
    (flip_finset s P)[i]? ≠ s[i]? ↔ i ∈ P := by
  rw [getElem?_flip_finset s P i h, List.getElem?_eq_getElem h]
  by_cases hiP : i ∈ P
  · simp only [if_pos hiP, hiP, iff_true, ne_eq, Option.some_inj]
    have := swap_pure_ne (hb.get ⟨i, h⟩)
    simpa using this
  · simp [if_neg hiP, hiP]

/-- Flipping is injective on position sets within range (binary strings). -/
theorem flip_finset_injOn {s : Str} (hb : IsBinary s) {P Q : Finset ℕ}
    (hP : P ⊆ Finset.range s.length) (hQ : Q ⊆ Finset.range s.length)
    (h : flip_finset s P = flip_finset s Q) : P = Q := by
  ext i
  by_cases hi : i < s.length
  · rw [← flip_finset_getElem?_ne_iff hb P i hi, ← flip_finset_getElem?_ne_iff hb Q i hi,
      show (flip_finset s P)[i]? = (flip_finset s Q)[i]? from congrArg (fun l => l[i]?) h]
  · constructor
    · intro hiP
      exact absurd (Finset.mem_range.mp (hP hiP)) hi
    · intro hiQ
      exact absurd (Finset.mem_range.mp (hQ hiQ)) hi

/-- A flipped string differs from the original when at least one in-range
position is flipped. -/
theorem flip_finset_ne_self {s : Str} (hb : IsBinary s) {P : Finset ℕ}
    (hP : P ⊆ Finset.range s.length) (hne : P.Nonempty) :
    flip_finset s P ≠ s := by
  obtain ⟨i, hiP⟩ := hne
  have hi : i < s.length := Finset.mem_range.mp (hP hiP)
  intro heq
  exact (flip_finset_getElem?_ne_iff hb P i hi).mpr hiP
    (congrArg (fun l => l[i]?) heq)

/-! ### The neighbor buckets, in closed form -/

theorem mem_combinations_nodup {L d : ℕ} {ps : List ℕ}
    (h : ps ∈ combinations L d) : ps.Nodup :=
  ((List.mem_sublistsLen.mp h).1).nodup (List.nodup_range L)

theorem mem_combinations_lt {L d : ℕ} {ps : List ℕ}
    (h : ps ∈ combinations L d) : ∀ i ∈ ps, i < L := fun i hi =>
  List.mem_range.mp ((List.mem_sublistsLen.mp h).1.subset hi)

theorem mem_combinations_length {L d : ℕ} {ps : List ℕ}
    (h : ps ∈ combinations L d) : ps.length = d :=
  (List.mem_sublistsLen.mp h).2

theorem neighbors_at_eq {s : Str} (hb : IsBinary s) (d : ℕ) :
    neighbors_at s d
      = some ((combinations s.length d).map (fun ps => flip_finset s ps.toFinset)) :=
  seqMap_eq_some_of (fun ps hps =>
    flip_tuple_eq ps s hb (mem_combinations_nodup hps) (mem_combinations_lt hps))

/-- The position subsets picked out by `itertools.combinations` are exactly the
`d`-element subsets of `{0, ..., L-1}`. -/
theorem combinations_toFinset_eq {L d : ℕ} (P : Finset ℕ) :
    (∃ ps ∈ combinations L d, ps.toFinset = P)
      ↔ P ∈ Finset.powersetCard d (Finset.range L) := by
  constructor
  · rintro ⟨ps, hps, rfl⟩
    rw [Finset.mem_powersetCard]
    constructor
    · intro i hi
      rw [List.mem_toFinset] at hi
      exact Finset.mem_range.mpr (mem_combinations_lt hps i hi)
    · rw [List.toFinset_card_of_nodup (mem_combinations_nodup hps)]
      exact mem_combinations_length hps
  · intro hP
    rw [Finset.mem_powersetCard] at hP
    refine ⟨(List.range L).filter (fun i => decide (i ∈ P)), ?_, ?_⟩
    · rw [combinations, List.mem_sublistsLen]
      refine ⟨List.filter_sublist _, ?_⟩
      have hnd : ((List.range L).filter (fun i => decide (i ∈ P))).Nodup :=
        (List.filter_sublist _).nodup (List.nodup_range L)
      have hfin : ((List.range L).filter (fun i => decide (i ∈ P))).toFinset = P := by
        ext i
        simp only [List.mem_toFinset, List.mem_filter, List.mem_range, decide_eq_true_eq]
        exact ⟨fun h => h.2, fun h => ⟨Finset.mem_range.mp (hP.1 h), h⟩⟩
      rw [← List.toFinset_card_of_nodup hnd, hfin]
      exact hP.2
    · ext i
      simp only [List.mem_toFinset, List.mem_filter, List.mem_range, decide_eq_true_eq]
      exact ⟨fun h => h.2, fun h => ⟨Finset.mem_range.mp (hP.1 h), h⟩⟩

theorem neighbors_list_toFinset {s : Str} (hb : IsBinary s) (d : ℕ) :
    ((combinations s.length d).map (fun ps => flip_finset s ps.toFinset)).toFinset
      = neighbors_spec s d := by
  ext t
  rw [List.mem_toFinset, List.mem_map, neighbors_spec, Finset.mem_image]
  constructor
  · rintro ⟨ps, hps, rfl⟩
    exact ⟨ps.toFinset, (combinations_toFinset_eq ps.toFinset).mp ⟨ps, hps, rfl⟩, rfl⟩
  · rintro ⟨P, hP, rfl⟩
    obtain ⟨ps, hps, rfl⟩ := (combinations_toFinset_eq P).mpr hP
    exact ⟨ps, hps, rfl⟩

theorem neighbors_spec_card {s : Str} (hb : IsBinary s) (d : ℕ) :
    (neighbors_spec s d).card = Nat.choose s.length d := by
  rw [neighbors_spec, Finset.card_image_of_injOn, Finset.card_powersetCard,
    Finset.card_range]
  intro P hP Q hQ h
  exact flip_finset_injOn hb (Finset.mem_powersetCard.mp hP).1
    (Finset.mem_powersetCard.mp hQ).1 h

/-- `_calculate_possible_neighbors_iter` on a binary string succeeds and
produces, at each bucket `d < min_spacing`, exactly the set of flips of `d`
positions. -/
theorem calculate_possible_neighbors_iter_eq {s : Str} (hb : IsBinary s)
    (min_spacing : ℕ) :
    calculate_possible_neighbors_iter s min_spacing
      = some ((List.range min_spacing).map (neighbors_spec s)) :=
  seqMap_eq_some_of (fun d _ => by
    rw [neighbors_at_eq hb d, Option.map_some', neighbors_list_toFinset hb d])

/-! ### `add_relevant_edges`, in closed form -/

theorem node_edge_buckets_eq {n : Str} (hb : IsBinary n) (nodes : Finset Str)
    (m : ℕ) :
    node_edge_buckets nodes m n
      = some ((List.range m).map (fun d => node_buckets_spec nodes n d)) := by
  rw [node_edge_buckets, calculate_possible_neighbors_iter_eq hb, Option.map_some']
  congr 1
  rw [find_present_neighbors, List.map_map, List.map_map]
  rfl

theorem getD_range_map {β : Type} (f : ℕ → β) (v : β) {m d : ℕ} (hd : d < m) :
    ((List.range m).map f).getD d v = f d := by
  rw [List.getD_eq_getElem?_getD, List.getElem?_map, List.getElem?_range hd]
  rfl

theorem getD_lt_length {β : Type} {l : List β} (v : β) {d : ℕ}
    (hd : d < l.length) : l.getD d v = l.get ⟨d, hd⟩ := by
  rw [List.getD_eq_getElem?_getD, List.getElem?_eq_getElem hd]
  rfl

theorem add_edges_loop_cons_some {nodes : Finset Str} {m : ℕ} {n : Str}
    {dict bks : List (Finset EdgePair)} {l : List Str}
    (h : node_edge_buckets nodes m n = some bks) :
    add_edges_loop nodes m dict (n :: l)
      = add_edges_loop nodes m
          (if dict.isEmpty then bks else dict.zipWith (fun s t => s ∪ t) bks) l := by
  rw [add_edges_loop, h]

theorem getD_zipWith_union {l₁ l₂ : List (Finset EdgePair)} {d : ℕ}
    (h₁ : d < l₁.length) (h₂ : d < l₂.length) :
    (l₁.zipWith (fun s t => s ∪ t) l₂).getD d ∅ = l₁.getD d ∅ ∪ l₂.getD d ∅ := by
  have e1 : l₁[d]? = some l₁[d] := List.getElem?_eq_getElem h₁
  have e2 : l₂[d]? = some l₂[d] := List.getElem?_eq_getElem h₂
  rw [List.getD_eq_getElem?_getD, List.getElem?_zipWith, e1, e2,
    List.getD_eq_getElem?_getD, List.getD_eq_getElem?_getD, e1, e2]
  rfl

theorem edges_upto_nil (nodes : Finset Str) (d : ℕ) :
    edges_upto nodes [] d = ∅ := rfl

theorem edges_upto_cons (nodes : Finset Str) (n : Str) (l : List Str) (d : ℕ) :
    edges_upto nodes (n :: l) d = node_buckets_spec nodes n d ∪ edges_upto nodes l d :=
  rfl

theorem mem_edges_upto {nodes : Finset Str} {l : List Str} {d : ℕ} {e : EdgePair} :
    e ∈ edges_upto nodes l d ↔ ∃ n ∈ l, e ∈ node_buckets_spec nodes n d := by
  induction l with
  | nil => simp [edges_upto_nil]
  | cons n l ih => simp [edges_upto_cons, ih, Finset.mem_union]

theorem add_edges_loop_eq (nodes : Finset Str) (m : ℕ) :
    ∀ (l : List Str) (dict : List (Finset EdgePair)),
      (∀ n ∈ l, IsBinary n) → dict.length = m →
      add_edges_loop nodes m dict l
        = some ((List.range m).map (fun d => dict.getD d ∅ ∪ edges_upto nodes l d))
  | [], dict, _, hlen => by
    rw [add_edges_loop]
    congr 1
    apply List.ext_getElem
    · simp [hlen]
    · intro i h1 h2
      have hi : i < m := by simpa [hlen] using h1
      have : ((List.range m).map
          (fun d => dict.getD d ∅ ∪ edges_upto nodes ([] : List Str) d))[i]
            = dict.getD i ∅ ∪ edges_upto nodes [] i := by
        simp [List.getElem_map, List.getElem_range]
      rw [this, edges_upto_nil, Finset.union_empty, getD_lt_length (∅ : Finset EdgePair) h1]
      simp
  | n :: l, dict, hbl, hlen => by
    have hbn : IsBinary n := hbl n (List.mem_cons_self n l)
    have hbl2 : ∀ x ∈ l, IsBinary x := fun x hx => hbl x (List.mem_cons_of_mem n hx)
    rw [add_edges_loop_cons_some (node_edge_buckets_eq hbn nodes m)]
    have hbkslen : ((List.range m).map (fun d => node_buckets_spec nodes n d)).length = m := by
      simp
    by_cases hde : dict.isEmpty
    · have hdictnil : dict = [] := List.isEmpty_iff.mp hde
      have hm0 : m = 0 := by rw [← hlen, hdictnil]; rfl
      subst hm0
      rw [hdictnil]
      simp only [List.range_zero, List.map_nil, List.isEmpty_nil, if_true]
      rw [add_edges_loop_eq nodes 0 l [] hbl2 rfl]
      simp
    · rw [if_neg hde]
      have hziplen :
          (dict.zipWith (fun s t => s ∪ t)
            ((List.range m).map (fun d => node_buckets_spec nodes n d))).length = m := by
        simp [List.length_zipWith, hlen]
      rw [add_edges_loop_eq nodes m l _ hbl2 hziplen]
      congr 1
      apply List.map_congr_left
      intro d hd
      have hdm : d < m := List.mem_range.mp hd
      rw [getD_zipWith_union (by rw [hlen]; exact hdm) (by rw [hbkslen]; exact hdm),
        getD_range_map (fun d => node_buckets_spec nodes n d) ∅ hdm,
        edges_upto_cons, Finset.union_assoc]

theorem add_relevant_edges_empty (m : ℕ) : add_relevant_edges (∅ : Finset Str) m = some [] :=
  rfl

/-- `add_relevant_edges` on a nonempty set of binary nodes succeeds and fills,
for every cost `d < min_spacing` in increasing key order, the bucket of all
pairs of nodes at flip-distance exactly `d`. -/
theorem add_relevant_edges_eq {nodes : Finset Str} (hb : ∀ n ∈ nodes, IsBinary n)
    (hne : nodes.Nonempty) (m : ℕ) :
    add_relevant_edges nodes m
      = some ((List.range m).map (fun d => bucket_edges nodes d)) := by
  have hsortlen : (node_list nodes).length = nodes.card := length_node_list
  have hcard : nodes.card ≠ 0 := Finset.card_ne_zero_of_mem hne.choose_spec
  cases hsort : node_list nodes with
  | nil => rw [hsort] at hsortlen; exact absurd hsortlen.symm hcard
  | cons n rest =>
    have hmem : ∀ x ∈ n :: rest, x ∈ nodes := by
      intro x hx
      rw [← @mem_node_list nodes x, hsort]
      exact hx
    have hbn : IsBinary n := hb n (hmem n (List.mem_cons_self n rest))
    rw [add_relevant_edges, hsort,
      add_edges_loop_cons_some (node_edge_buckets_eq hbn nodes m)]
    simp only [List.isEmpty_nil, if_true]
    rw [add_edges_loop_eq nodes m rest _
        (fun x hx => hb x (hmem x (List.mem_cons_of_mem n hx)))
        (by simp)]
    congr 1
    apply List.map_congr_left
    intro d hd
    have hdm : d < m := List.mem_range.mp hd
    rw [getD_range_map (fun d => node_buckets_spec nodes n d) ∅ hdm]
    rw [show node_buckets_spec nodes n d ∪ edges_upto nodes rest d
        = edges_upto nodes (n :: rest) d from (edges_upto_cons nodes n rest d).symm]
    ext e
    rw [mem_edges_upto, bucket_edges, Finset.mem_biUnion]
    constructor
    · rintro ⟨x, hx, hex⟩
      exact ⟨x, hmem x hx, hex⟩
    · rintro ⟨x, hx, hex⟩
      refine ⟨x, ?_, hex⟩
      rw [← hsort]
      exact mem_node_list.mpr hx

/-! ### Lemmas about the yielded edge stream -/

theorem mem_edge_list {s : Finset EdgePair} {e : EdgePair} :
    e ∈ edge_list s ↔ e ∈ s :=
  (mem_msort pairLe).trans Finset.mem_def.symm

theorem yield_from_nil (c : ℕ) : yield_from c [] = [] := rfl

theorem yield_from_cons (c : ℕ) (s : Finset EdgePair) (rest : List (Finset EdgePair)) :
    yield_from c (s :: rest)
      = (edge_list s).map (fun e => (c, e)) ++ yield_from (c + 1) rest := rfl

theorem mem_yield_from {dict : List (Finset EdgePair)} :
    ∀ {c0 c : ℕ} {p : EdgePair},
      (c, p) ∈ yield_from c0 dict
        ↔ ∃ i, ∃ h : i < dict.length, c = c0 + i ∧ p ∈ dict.get ⟨i, h⟩ := by
  induction dict with
  | nil => simp [yield_from_nil]
  | cons s rest ih =>
    intro c0 c p
    rw [yield_from_cons, List.mem_append, List.mem_map]
    constructor
    · rintro (⟨e, he, heq⟩ | hrest)
      · obtain ⟨rfl, rfl⟩ : c = c0 ∧ p = e := by
          constructor
          · exact (congrArg Prod.fst heq).symm
          · exact (congrArg Prod.snd heq).symm
        exact ⟨0, Nat.succ_pos _, by omega, mem_edge_list.mp he⟩
      · obtain ⟨i, hi, hc, hp⟩ := ih.mp hrest
        exact ⟨i + 1, Nat.succ_lt_succ hi, by omega, hp⟩
    · rintro ⟨i, hi, rfl, hp⟩
      cases i with
      | zero =>
        left
        exact ⟨p, mem_edge_list.mpr hp, by simp⟩
      | succ j =>
        right
        refine ih.mpr ⟨j, Nat.lt_of_succ_lt_succ hi, by omega, hp⟩

theorem mem_yield_edges {dict : List (Finset EdgePair)} {c : ℕ} {p : EdgePair} :
    (c, p) ∈ yield_edges dict ↔ ∃ h : c < dict.length, p ∈ dict.get ⟨c, h⟩ := by
  rw [yield_edges, mem_yield_from]
  constructor
  · rintro ⟨i, hi, rfl, hp⟩
    exact ⟨by simpa using hi, by simpa using hp⟩
  · rintro ⟨hc, hp⟩
    exact ⟨c, hc, (Nat.zero_add c).symm, hp⟩

theorem yield_from_cost_ge {dict : List (Finset EdgePair)} :
    ∀ {c0 : ℕ} {x : ℕ × EdgePair}, x ∈ yield_from c0 dict → c0 ≤ x.1 := by
  induction dict with
  | nil => simp [yield_from_nil]
  | cons s rest ih =>
    intro c0 x hx
    rw [yield_from_cons, List.mem_append, List.mem_map] at hx
    rcases hx with ⟨e, _, rfl⟩ | hx
    · exact le_refl c0
    · exact Nat.le_of_succ_le (ih hx)

theorem yield_from_sorted (dict : List (Finset EdgePair)) :
    ∀ c0 : ℕ, List.Sorted (· ≤ ·) ((yield_from c0 dict).map Prod.fst) := by
  induction dict with
  | nil => intro c0; simp [yield_from_nil]
  | cons s rest ih =>
    intro c0
    rw [yield_from_cons, List.map_append]
    apply List.pairwise_append.mpr
    refine ⟨?_, ih (c0 + 1), ?_⟩
    · rw [List.map_map]
      apply List.pairwise_map.mpr
      induction edge_list s with
      | nil => exact List.Pairwise.nil
      | cons e es ihp => exact List.Pairwise.cons (fun y _ => le_refl c0) ihp
    · intro a ha b hb
      rw [List.map_map] at ha
      obtain ⟨e, _, rfl⟩ := List.mem_map.mp ha
      obtain ⟨x, hx, rfl⟩ := List.mem_map.mp hb
      exact Nat.le_of_succ_le (yield_from_cost_ge hx)

/-! ### Bucket contents -/

theorem mem_bucket_edges {nodes : Finset Str} {d : ℕ} {e : EdgePair} :
    e ∈ bucket_edges nodes d
      ↔ ∃ n ∈ nodes, ∃ P ∈ Finset.powersetCard d (Finset.range n.length),
          flip_finset n P ∈ nodes ∧ e = (n, flip_finset n P) := by
  rw [bucket_edges, Finset.mem_biUnion]
  constructor
  · rintro ⟨n, hn, he⟩
    rw [node_buckets_spec, Finset.mem_image] at he
    obtain ⟨t, ht, rfl⟩ := he
    rw [Finset.mem_filter, neighbors_spec, Finset.mem_image] at ht
    obtain ⟨⟨P, hP, rfl⟩, htn⟩ := ht
    exact ⟨n, hn, P, hP, htn, rfl⟩
  · rintro ⟨n, hn, P, hP, htn, rfl⟩
    refine ⟨n, hn, ?_⟩
    rw [node_buckets_spec, Finset.mem_image]
    refine ⟨flip_finset n P, ?_, rfl⟩
    rw [Finset.mem_filter, neighbors_spec, Finset.mem_image]
    exact ⟨⟨P, hP, rfl⟩, htn⟩

theorem self_pair_mem_bucket_zero {nodes : Finset Str} {n : Str} (hn : n ∈ nodes) :
    (n, n) ∈ bucket_edges nodes 0 := by
  rw [mem_bucket_edges]
  refine ⟨n, hn, ∅, ?_, ?_, ?_⟩
  · rw [Finset.mem_powersetCard]
    exact ⟨Finset.empty_subset _, Finset.card_empty⟩
  · rw [flip_finset_empty]; exact hn
  · rw [flip_finset_empty]

theorem bucket_zero_only_self {nodes : Finset Str} {e : EdgePair}
    (he : e ∈ bucket_edges nodes 0) : e.1 = e.2 := by
  rw [mem_bucket_edges] at he
  obtain ⟨n, _, P, hP, _, rfl⟩ := he
  rw [Finset.mem_powersetCard] at hP
  have : P = ∅ := Finset.card_eq_zero.mp hP.2
  subst this
  rw [flip_finset_empty]

/-! ### Lemmas about the spec-modelled union-find -/

theorem component_sizes_card (uf : UnionFind) :
    uf.component_sizes.card = (uf.nodes.image uf.rep).card := by
  rw [UnionFind.component_sizes]
  exact Finset.card_image_of_injective _
    (fun a b h => congrArg Prod.fst h)

theorem foldl_add_node_str_rep :
    ∀ (l : List Str) (uf : UnionFind), (∀ x, uf.rep x = x) →
      ∀ x, (l.foldl UnionFind.add_node_str uf).rep x = x
  | [], uf, h, x => h x
  | n :: l, uf, h, x => by
    rw [List.foldl_cons]
    refine foldl_add_node_str_rep l (uf.add_node_str n) ?_ x
    intro y
    rw [UnionFind.add_node_str]
    by_cases hn : n ∈ uf.nodes
    · rw [if_pos hn]; exact h y
    · rw [if_neg hn]
      by_cases hy : y = n
      · simp [hy]
      · simp [hy, h y]

theorem load_nodes_rep (l : List Str) (x : Str) : (load_nodes l).rep x = x :=
  foldl_add_node_str_rep l UnionFind.empty (fun _ => rfl) x

theorem add_node_str_nodes (uf : UnionFind) (n : Str) :
    (uf.add_node_str n).nodes = insert n uf.nodes := by
  rw [UnionFind.add_node_str]
  by_cases hn : n ∈ uf.nodes
  · rw [if_pos hn]
    exact (Finset.insert_eq_self.mpr hn).symm
  · rw [if_neg hn]

theorem foldl_add_node_str_nodes :
    ∀ (l : List Str) (uf : UnionFind),
      (l.foldl UnionFind.add_node_str uf).nodes = uf.nodes ∪ l.toFinset
  | [], uf => by simp
  | n :: l, uf => by
    rw [List.foldl_cons, foldl_add_node_str_nodes l (uf.add_node_str n),
      add_node_str_nodes, List.toFinset_cons, Finset.insert_union,
      Finset.union_insert]

theorem load_nodes_nodes (l : List Str) : (load_nodes l).nodes = l.toFinset := by
  rw [load_nodes, foldl_add_node_str_nodes l UnionFind.empty]
  exact Finset.empty_union _

theorem load_nodes_component_count (l : List Str) :
    (load_nodes l).component_sizes.card = l.toFinset.card := by
  rw [component_sizes_card]
  have himg : (load_nodes l).nodes.image (load_nodes l).rep = (load_nodes l).nodes := by
    have : (load_nodes l).nodes.image (load_nodes l).rep
        = (load_nodes l).nodes.image id := by
      apply Finset.image_congr
      intro x _
      exact load_nodes_rep l x
    rw [this, Finset.image_id]
  rw [himg, load_nodes_nodes]

/-! ### Lemmas about the clustering loop -/

theorem process_edge_self (uf : UnionFind) (c : ℕ) (u : Str) :
    process_edge uf (c, (u, u)) = uf := by
  rw [process_edge]
  simp

theorem process_edges_self_pairs :
    ∀ {es : List (ℕ × EdgePair)} (uf : UnionFind),
      (∀ e ∈ es, e.2.1 = e.2.2) → process_edges uf es = uf
  | [], uf, _ => rfl
  | e :: es, uf, h => by
    have he : e.2.1 = e.2.2 := h e (List.mem_cons_self e es)
    have hstep : process_edge uf e = uf := by
      rw [process_edge]
      simp [he]
    rw [process_edges, List.foldl_cons, hstep]
    exact process_edges_self_pairs uf (fun x hx => h x (List.mem_cons_of_mem e hx))

theorem get_k_min_spacing_of_ne_nil {uf : UnionFind} {dict : List (Finset EdgePair)}
    (h : yield_edges dict ≠ []) :
    get_k_min_spacing uf dict
      = some ((process_edges uf (yield_edges dict)).component_sizes.card) := by
  rw [get_k_min_spacing]
  cases hy : yield_edges dict with
  | nil => exact absurd hy h
  | cons e es => rw [process_edges, List.foldl_cons]; rfl

theorem get_k_min_spacing_nil (uf : UnionFind) : get_k_min_spacing uf [] = none := rfl

/-! ### Shared consequences of the closed form -/

theorem dict_length_le {nodes : Finset Str} {m : ℕ} {dict : List (Finset EdgePair)}
    (hb : ∀ n ∈ nodes, IsBinary n)
    (hdict : add_relevant_edges nodes m = some dict) : dict.length ≤ m := by
  rcases Finset.eq_empty_or_nonempty nodes with rfl | hne
  · rw [add_relevant_edges_empty] at hdict
    obtain rfl := Option.some.inj hdict
    exact Nat.zero_le m
  · rw [add_relevant_edges_eq hb hne m] at hdict
    obtain rfl := Option.some.inj hdict
    simp

theorem yielded_costs_lt {nodes : Finset Str} {m : ℕ} {dict : List (Finset EdgePair)}
    (hb : ∀ n ∈ nodes, IsBinary n)
    (hdict : add_relevant_edges nodes m = some dict) :
    ∀ c p, (c, p) ∈ yield_edges dict → c < m := by
  intro c p hcp
  obtain ⟨hc, _⟩ := mem_yield_edges.mp hcp
  exact Nat.lt_of_lt_of_le hc (dict_length_le hb hdict)

theorem yield_edges_ne_nil_of {nodes : Finset Str} {m : ℕ}
    {dict : List (Finset EdgePair)} (hb : ∀ n ∈ nodes, IsBinary n)
    (hne : nodes.Nonempty) (hm : 1 ≤ m)
    (hdict : add_relevant_edges nodes m = some dict) : yield_edges dict ≠ [] := by
  obtain ⟨n, hn⟩ := hne
  rw [add_relevant_edges_eq hb ⟨n, hn⟩ m] at hdict
  obtain rfl := Option.some.inj hdict
  have h0 : 0 < ((List.range m).map (fun d => bucket_edges nodes d)).length := by
    simpa using hm
  have hmem0 : ((0 : ℕ), ((n, n) : EdgePair))
      ∈ yield_edges ((List.range m).map (fun d => bucket_edges nodes d)) := by
    rw [mem_yield_edges]
    refine ⟨h0, ?_⟩
    rw [List.get_eq_getElem, List.getElem_map, List.getElem_range]
    exact self_pair_mem_bucket_zero hn
  exact List.ne_nil_of_mem hmem0

/-! ### The claims -/

/-- C1, as stated, is refuted at a concrete input: for the node set
`{"0"}` and `min_spacing = 1`, `add_relevant_edges` does record the node
paired with itself — the pair `("0", "0")` sits in cost bucket 0 of
`edge_endpoints`. -/
theorem claim_C1_counterexample :
    ((add_relevant_edges {['0']} 1).getD []).getD 0 ∅ = {(['0'], ['0'])} := by
  decide

/-- C1 (amended): distance-0 self-matches ARE recorded (in cost bucket 0),
but no bucket of positive cost `d ≥ 1` ever contains a pair of a node with
itself: any pair recorded there flips at least one position. -/
theorem claim_C1_no_self_pair_at_positive_cost
    (nodes : Finset Str) (m d : ℕ) (dict : List (Finset EdgePair)) (u v : Str)
    (hb : ∀ n ∈ nodes, IsBinary n)
    (hdict : add_relevant_edges nodes m = some dict)
    (hd : 1 ≤ d) (hmem : (u, v) ∈ dict.getD d ∅) : u ≠ v := by
  rcases Finset.eq_empty_or_nonempty nodes with rfl | hne
  · rw [add_relevant_edges_empty] at hdict
    obtain rfl := Option.some.inj hdict
    simp [List.getD] at hmem
  · rw [add_relevant_edges_eq hb hne m] at hdict
    obtain rfl := Option.some.inj hdict
    by_cases hdm : d < m
    · rw [getD_range_map (fun d => bucket_edges nodes d) ∅ hdm] at hmem
      rw [mem_bucket_edges] at hmem
      obtain ⟨n, hn, P, hP, htn, heq⟩ := hmem
      obtain ⟨h1, h2⟩ := Prod.mk.inj heq
      have hPm := Finset.mem_powersetCard.mp hP
      have hPne : P.Nonempty := Finset.card_pos.mp (by rw [hPm.2]; omega)
      intro huv
      rw [h1, h2] at huv
      exact flip_finset_ne_self (hb n hn) hPm.1 hPne huv.symm
    · rw [List.getD_eq_default] at hmem
      · exact absurd hmem (Finset.not_mem_empty _)
      · simpa using Nat.le_of_not_lt hdm

/-- C1 witness: on nodes `{"0", "1"}` with `min_spacing = 2`, the recorded
cost-1 pair `("0", "1")` has distinct endpoints. -/
theorem claim_C1_witness : (['0'] : Str) ≠ ['1'] :=
  claim_C1_no_self_pair_at_positive_cost {['0'], ['1']} 2 1
    [{((['0'], ['0'])), ((['1'], ['1']))}, {((['0'], ['1'])), ((['1'], ['0']))}]
    ['0'] ['1'] (by decide) (by decide) (by decide) (by decide)

/-- C2: on a binary node string of length `L`, bucket `d < min_spacing` of
`_calculate_possible_neighbors_iter` has exactly `C(L, d)` distinct strings —
precisely the strings obtained by flipping exactly `d` distinct positions,
with no duplicates and no omissions. -/
theorem claim_C2_bucket_exact (s : Str) (m d : ℕ) (hb : IsBinary s) (hd : d < m) :
    ∃ bs, calculate_possible_neighbors_iter s m = some bs ∧ bs.length = m ∧
      (bs.getD d ∅).card = Nat.choose s.length d ∧
      ∀ t, t ∈ bs.getD d ∅ ↔
        ∃ P ∈ Finset.powersetCard d (Finset.range s.length), flip_finset s P = t := by
  refine ⟨(List.range m).map (neighbors_spec s),
    calculate_possible_neighbors_iter_eq hb m, by simp, ?_, ?_⟩
  · rw [getD_range_map (neighbors_spec s) ∅ hd]
    exact neighbors_spec_card hb d
  · intro t
    rw [getD_range_map (neighbors_spec s) ∅ hd, neighbors_spec, Finset.mem_image]

/-- C2 witness, at node "01", `min_spacing = 2`, `d = 1` (two flips of one
position; `C(2,1) = 2`). -/
theorem claim_C2_witness :
    IsBinary ['0', '1'] ∧ 1 < 2 ∧
    (∃ bs, calculate_possible_neighbors_iter ['0', '1'] 2 = some bs ∧ bs.length = 2 ∧
      (bs.getD 1 ∅).card = Nat.choose (['0', '1'] : Str).length 1 ∧
      ∀ t, t ∈ bs.getD 1 ∅ ↔
        ∃ P ∈ Finset.powersetCard 1 (Finset.range (['0', '1'] : Str).length),
          flip_finset ['0', '1'] P = t) :=
  ⟨by decide, by decide, claim_C2_bucket_exact ['0', '1'] 2 1 (by decide) (by decide)⟩

/-- C3: once `add_relevant_edges` has populated the edge map of a nonempty
binary node set (with `min_spacing ≥ 1`), `get_k_min_spacing` consumes every
recorded edge — each recorded pair appears in the stream it folds over, each
streamed pair is conditionally unioned (`process_edge`) — and, after the
stream is exhausted, it returns the number of entries of the union-find's
component-size map. -/
theorem claim_C3_consumes_all_edges (nodes : Finset Str) (m : ℕ) (uf : UnionFind)
    (dict : List (Finset EdgePair)) (hb : ∀ n ∈ nodes, IsBinary n)
    (hne : nodes.Nonempty) (hm : 1 ≤ m)
    (hdict : add_relevant_edges nodes m = some dict) :
    get_k_min_spacing uf dict
      = some ((process_edges uf (yield_edges dict)).component_sizes.card)
    ∧ ∀ c p (hc : c < dict.length), p ∈ dict.get ⟨c, hc⟩ → (c, p) ∈ yield_edges dict :=
  ⟨get_k_min_spacing_of_ne_nil (yield_edges_ne_nil_of hb hne hm hdict),
   fun _ _ hc hp => mem_yield_edges.mpr ⟨hc, hp⟩⟩

/-- C3 witness, on nodes `{"0", "1"}` with `min_spacing = 2` and the
union-find loaded with the same nodes. -/
theorem claim_C3_witness :
    get_k_min_spacing (load_nodes [['0'], ['1']])
        [{((['0'], ['0'])), ((['1'], ['1']))}, {((['0'], ['1'])), ((['1'], ['0']))}]
      = some ((process_edges (load_nodes [['0'], ['1']])
          (yield_edges [{((['0'], ['0'])), ((['1'], ['1']))},
            {((['0'], ['1'])), ((['1'], ['0']))}])).component_sizes.card)
    ∧ ∀ c p (hc : c < ([{((['0'], ['0'])), ((['1'], ['1']))},
          {((['0'], ['1'])), ((['1'], ['0']))}] : List (Finset EdgePair)).length),
        p ∈ ([{((['0'], ['0'])), ((['1'], ['1']))},
          {((['0'], ['1'])), ((['1'], ['0']))}] : List (Finset EdgePair)).get ⟨c, hc⟩ →
        (c, p) ∈ yield_edges [{((['0'], ['0'])), ((['1'], ['1']))},
          {((['0'], ['1'])), ((['1'], ['0']))}] :=
  claim_C3_consumes_all_edges {['0'], ['1']} 2 (load_nodes [['0'], ['1']])
    [{((['0'], ['0'])), ((['1'], ['1']))}, {((['0'], ['1'])), ((['1'], ['0']))}]
    (by decide) ⟨['0'], by decide⟩ (by decide) (by decide)

/-- C4: every cost key under which an edge pair is recorded is strictly
below `min_spacing` — the bucket list never extends past `min_spacing`
entries, and every cost the stream ever yields from the map stays below
`min_spacing`. -/
theorem claim_C4_costs_below_min_spacing (nodes : Finset Str) (m : ℕ)
    (dict : List (Finset EdgePair)) (hb : ∀ n ∈ nodes, IsBinary n)
    (hdict : add_relevant_edges nodes m = some dict) :
    dict.length ≤ m ∧ ∀ c p, (c, p) ∈ yield_edges dict → c < m :=
  ⟨dict_length_le hb hdict, yielded_costs_lt hb hdict⟩

/-- C4 witness, on nodes `{"0"}` with `min_spacing = 1`. -/
theorem claim_C4_witness :
    ([{((['0'], ['0']))}] : List (Finset EdgePair)).length ≤ 1
    ∧ ∀ c p, (c, p) ∈ yield_edges [{((['0'], ['0']))}] → c < 1 :=
  claim_C4_costs_below_min_spacing {['0']} 1 [{((['0'], ['0']))}]
    (by decide) (by decide)

/-- C5, as stated, is refuted at a concrete input: on the node set `{"0"}`
with `min_spacing = 2`, the very first edge `_yield_edges` yields has cost 0
(the self-match bucket), not "the smallest positive cost". -/
theorem claim_C5_counterexample :
    yield_edges ((add_relevant_edges {['0']} 2).getD []) = [(0, (['0'], ['0']))] := by
  decide

/-- C5 (amended): `_yield_edges` yields edges bucket by bucket in
non-decreasing cost order — no edge of a lower cost after one of a higher
cost — starting from cost 0 (the self-match bucket), and every yielded cost
stays below `min_spacing`. -/
theorem claim_C5_nondecreasing_costs (nodes : Finset Str) (m : ℕ)
    (dict : List (Finset EdgePair)) (hb : ∀ n ∈ nodes, IsBinary n)
    (hdict : add_relevant_edges nodes m = some dict) :
    List.Sorted (· ≤ ·) ((yield_edges dict).map Prod.fst)
    ∧ ∀ c p, (c, p) ∈ yield_edges dict → c < m :=
  ⟨yield_from_sorted dict 0, yielded_costs_lt hb hdict⟩

/-- C5 witness, on nodes `{"0", "1"}` with `min_spacing = 2` (yield order
`0, 0, 1, 1`). -/
theorem claim_C5_witness :
    List.Sorted (· ≤ ·)
      ((yield_edges [{((['0'], ['0'])), ((['1'], ['1']))},
        {((['0'], ['1'])), ((['1'], ['0']))}]).map Prod.fst)
    ∧ ∀ c p, (c, p) ∈ yield_edges [{((['0'], ['0'])), ((['1'], ['1']))},
        {((['0'], ['1'])), ((['1'], ['0']))}] → c < 2 :=
  claim_C5_nondecreasing_costs {['0'], ['1']} 2
    [{((['0'], ['0'])), ((['1'], ['1']))}, {((['0'], ['1'])), ((['1'], ['0']))}]
    (by decide) (by decide)

/-- C6: neighbor generation on a string with a character outside {'0','1'}
fails for every `min_spacing ≥ 2` — the `ValueError` from `_swap_digit`
propagates out of `_calculate_possible_neighbors_iter` — while on strings
entirely over {'0','1'} no error is ever raised, for any `min_spacing`. -/
theorem claim_C6_invalid_alphabet (s : Str) (m : ℕ) :
    (2 ≤ m → (∃ c ∈ s, c ≠ '0' ∧ c ≠ '1') →
      calculate_possible_neighbors_iter s m = none)
    ∧ (IsBinary s → ∃ bs, calculate_possible_neighbors_iter s m = some bs) := by
  constructor
  · rintro hm ⟨c, hc, hc0, hc1⟩
    obtain ⟨p, hp, hgot⟩ := List.mem_iff_getElem.mp hc
    have hswap : swap_digit c = none := by
      rw [swap_digit, if_neg hc1, if_neg hc0]
    have hflip : flip_at s p = none := by
      rw [flip_at, dif_pos hp,
        show s.get ⟨p, hp⟩ = c from hgot, hswap, Option.map_none']
    have htuple : flip_tuple s [p] = none := by
      rw [flip_tuple, hflip]
    have hcomb : [p] ∈ combinations s.length 1 := by
      rw [combinations, List.mem_sublistsLen]
      exact ⟨List.singleton_sublist.mpr (List.mem_range.mpr hp), rfl⟩
    have hna : neighbors_at s 1 = none := seqMap_eq_none_of_mem hcomb htuple
    have h1 : (neighbors_at s 1).map List.toFinset = none := by
      rw [hna, Option.map_none']
    exact seqMap_eq_none_of_mem (List.mem_range.mpr (by omega)) h1
  · intro hb
    exact ⟨_, calculate_possible_neighbors_iter_eq hb m⟩

/-- C6 witness: generation on "2" with `min_spacing = 2` raises; generation
on "0" succeeds. -/
theorem claim_C6_witness :
    calculate_possible_neighbors_iter ['2'] 2 = none
    ∧ ∃ bs, calculate_possible_neighbors_iter ['0'] 2 = some bs :=
  ⟨(claim_C6_invalid_alphabet ['2'] 2).1 (by decide)
      ⟨'2', by decide, by decide, by decide⟩,
   (claim_C6_invalid_alphabet ['0'] 2).2 (by decide)⟩

/-- C7: neighbor generation is deterministic — two calls of
`_calculate_possible_neighbors_iter` with identical node string and identical
`min_spacing` return identical lists of sets.  (The embedding reads no state
beyond its two arguments, mirroring the method, which reads only
`self.min_spacing` besides `node_str`.) -/
theorem claim_C7_deterministic (s₁ s₂ : Str) (m₁ m₂ : ℕ)
    (hs : s₁ = s₂) (hm : m₁ = m₂) :
    calculate_possible_neighbors_iter s₁ m₁ = calculate_possible_neighbors_iter s₂ m₂ := by
  rw [hs, hm]

/-- C7 witness. -/
theorem claim_C7_witness :
    calculate_possible_neighbors_iter ['0', '1'] 3
      = calculate_possible_neighbors_iter ['0', '1'] 3 :=
  claim_C7_deterministic ['0', '1'] ['0', '1'] 3 3 rfl rfl

/-- C8: with `min_spacing = 1` on a nonempty binary node list, no
positive-cost edge is ever yielded (every streamed cost is 0 — the eligible
range `1 .. min_spacing-1` is empty) and `get_k_min_spacing` returns the
number of distinct loaded nodes. -/
theorem claim_C8_min_spacing_one (l : List Str) (dict : List (Finset EdgePair))
    (hl : l ≠ []) (hb : ∀ n ∈ l.toFinset, IsBinary n)
    (hdict : add_relevant_edges l.toFinset 1 = some dict) :
    (∀ c p, (c, p) ∈ yield_edges dict → c = 0)
    ∧ get_k_min_spacing (load_nodes l) dict = some l.toFinset.card := by
  have hne : l.toFinset.Nonempty := by
    cases l with
    | nil => exact absurd rfl hl
    | cons a l => exact ⟨a, by simp⟩
  have hstream := yield_edges_ne_nil_of hb hne (le_refl 1) hdict
  rw [add_relevant_edges_eq hb hne 1] at hdict
  obtain rfl := Option.some.inj hdict
  constructor
  · intro c p hcp
    obtain ⟨hc, _⟩ := mem_yield_edges.mp hcp
    have hc1 : c < 1 := by simpa using hc
    omega
  · rw [get_k_min_spacing_of_ne_nil hstream]
    have hself : ∀ e ∈ yield_edges
        ((List.range 1).map (fun d => bucket_edges l.toFinset d)), e.2.1 = e.2.2 := by
      intro e he
      obtain ⟨c, p⟩ := e
      obtain ⟨hc, hp⟩ := mem_yield_edges.mp he
      have hc0 : c = 0 := by
        have : c < 1 := by simpa using hc
        omega
      subst hc0
      rw [List.get_eq_getElem, List.getElem_map, List.getElem_range] at hp
      exact bucket_zero_only_self hp
    rw [process_edges_self_pairs _ hself, load_nodes_component_count]

/-- C8 witness, on the node list `["0", "1"]` (two distinct nodes, k = 2). -/
theorem claim_C8_witness :
    (∀ c p, (c, p) ∈ yield_edges [{((['0'], ['0'])), ((['1'], ['1']))}] → c = 0)
    ∧ get_k_min_spacing (load_nodes [['0'], ['1']])
        [{((['0'], ['0'])), ((['1'], ['1']))}]
      = some ([['0'], ['1']] : List Str).toFinset.card :=
  claim_C8_min_spacing_one [['0'], ['1']] [{((['0'], ['0'])), ((['1'], ['1']))}]
    (by decide) (by decide) (by decide)

/-- C9: the `add_relevant_edges` method neither mutates the loaded node
membership set nor any union-find state, and leaves `min_spacing` untouched:
its only write is to `edge_endpoints`. -/
theorem claim_C9_frame (bc bc2 : BigCluster)
    (h : bc.add_relevant_edges_method = some bc2) :
    bc2.cluster_field = bc.cluster_field ∧ bc2.min_spacing = bc.min_spacing := by
  rw [BigCluster.add_relevant_edges_method] at h
  cases hd : add_relevant_edges bc.cluster_field.nodes bc.min_spacing with
  | none => rw [hd, Option.map_none'] at h; exact absurd h (by simp)
  | some d =>
    rw [hd, Option.map_some'] at h
    obtain rfl := Option.some.inj h
    exact ⟨rfl, rfl⟩

/-- C9 witness, on a `BigCluster` holding the empty node set. -/
theorem claim_C9_witness :
    BigCluster.add_relevant_edges_method ⟨[], 1, UnionFind.empty⟩
      = some ⟨[], 1, UnionFind.empty⟩
    ∧ (⟨[], 1, UnionFind.empty⟩ : BigCluster).cluster_field
        = (⟨[], 1, UnionFind.empty⟩ : BigCluster).cluster_field
    ∧ (⟨[], 1, UnionFind.empty⟩ : BigCluster).min_spacing
        = (⟨[], 1, UnionFind.empty⟩ : BigCluster).min_spacing := by
  have hmethod : BigCluster.add_relevant_edges_method ⟨[], 1, UnionFind.empty⟩
      = some ⟨[], 1, UnionFind.empty⟩ := rfl
  exact ⟨hmethod, (claim_C9_frame _ _ hmethod).1, (claim_C9_frame _ _ hmethod).2⟩

/-- C10: when `edge_endpoints` is empty — as after `add_relevant_edges` on an
empty node set, or when it was never run — the first `next()` in
`get_k_min_spacing` executes outside the `try` block, so the call raises an
uncaught `StopIteration` (modelled as `none`) instead of returning a
component count. -/
theorem claim_C10_uncaught_stop_iteration (uf : UnionFind) (m : ℕ) :
    add_relevant_edges (∅ : Finset Str) m = some []
    ∧ get_k_min_spacing uf [] = none :=
  ⟨add_relevant_edges_empty m, get_k_min_spacing_nil uf⟩
